import Mathlib

/-!
Verification of the ClipboardWatcher core against its specification.

The definitions below are a shallow embedding of the Rust sources:
* `src/src-tauri/src/db.rs`   — `ClipboardDatabase` (SQLite persistence layer),
* `src/src-tauri/src/lib.rs`  — the clipboard polling thread and commands,
* `src/src-tauri/src/model.rs`— `ClipboardEvent`,
* `src/src-tauri/src/fzf.rs`  — the fuzzy-match scorer.

Machine integers (`i64`, `i32`) are modelled as `Int` (no overflow occurs in
any scenario considered here); SQLite's `TEXT` values are modelled as `String`
compared by the codepoint-lexicographic order, which coincides with SQLite's
`memcmp` order on UTF-8 encodings.
-/

/- ### Data model (db.rs) -/

/-- `ContentType` from db.rs: the tagged union of entry kinds. -/
inductive ContentType
  | Text
  | Image
deriving DecidableEq, Repr

/-- `ClipboardEntry` from db.rs (field for field). `id` is `Option` because it
is `None` until the store assigns it. -/
structure ClipboardEntry where
  id : Option Int
  content_type : ContentType
  image_path : Option String
  text_content : Option String
  created_at : String
deriving DecidableEq, Repr

/-- `ClipboardEntry::new_text_entry`.  The Rust constructor stamps
`chrono::Utc::now()`; the clock is passed explicitly here. -/
def ClipboardEntry.new_text_entry (text : String) (now : String) : ClipboardEntry :=
  { id := none
    content_type := .Text
    text_content := some text
    image_path := none
    created_at := now }

/-- `ClipboardEntry::new_image_entry` (clock passed explicitly). -/
def ClipboardEntry.new_image_entry (image_path : String) (now : String) : ClipboardEntry :=
  { id := none
    content_type := .Image
    image_path := some image_path
    text_content := none
    created_at := now }

/-- One row of the `clipboard_history` table, with the column types of the
schema in `init_schema`: `id INTEGER PRIMARY KEY AUTOINCREMENT`,
`content_type TEXT NOT NULL`, `image_path TEXT`, `text_content TEXT`,
`created_at TEXT NOT NULL`. -/
structure StoredRow where
  id : Int
  content_type : String
  image_path : Option String
  text_content : Option String
  created_at : String
deriving DecidableEq, Repr

/-- The state of the SQLite database: the stored rows plus the AUTOINCREMENT
counter that yields the next strictly-increasing row id. -/
structure DbState where
  rows : List StoredRow
  nextId : Int
deriving DecidableEq, Repr

/-- Errors surfaced by the rusqlite row mappers.  `invalidColumnType` is
`rusqlite::Error::InvalidColumnType`, returned when `row.get` asks for a Rust
type the SQL value cannot convert to. -/
inductive DbError
  | invalidColumnType
deriving DecidableEq, Repr

/-- An SQL value as handed to a rusqlite row mapper. -/
inductive SqlValue
  | int (i : Int)
  | text (s : String)
  | null
deriving DecidableEq, Repr

/-- A nullable `TEXT` column as an `SqlValue`. -/
def SqlValue.ofOptText : Option String → SqlValue
  | some s => .text s
  | none => .null

/-- `row.get` at type `String` (rusqlite `FromSql for String`): only a `TEXT`
value converts; `INTEGER` and `NULL` fail with `InvalidColumnType`. -/
def SqlValue.asString : SqlValue → Except DbError String
  | .text s => .ok s
  | _ => .error .invalidColumnType

/-- `row.get` at type `Option<String>`: `NULL` becomes `none`, `TEXT` converts,
`INTEGER` fails. -/
def SqlValue.asOptString : SqlValue → Except DbError (Option String)
  | .null => .ok none
  | .text s => .ok (some s)
  | .int _ => .error .invalidColumnType

/-- `row.get` at type `i64`: only `INTEGER` converts. -/
def SqlValue.asInt : SqlValue → Except DbError Int
  | .int i => .ok i
  | _ => .error .invalidColumnType

/-- `row.get` at type `Option<i64>`. -/
def SqlValue.asOptInt : SqlValue → Except DbError (Option Int)
  | .null => .ok none
  | .int i => .ok (some i)
  | .text _ => .error .invalidColumnType

/-- The result row of
`SELECT id, content_type, text_content, image_path, created_at` for a stored
row, as the list of SQL values in column order 0..4. -/
def selectRow (r : StoredRow) : List SqlValue :=
  [.int r.id, .text r.content_type, .ofOptText r.text_content,
   .ofOptText r.image_path, .text r.created_at]

/-- The order produced by `ORDER BY created_at DESC`: SQLite scans the
`idx_created_at` index, which yields `created_at` descending and, within equal
keys, ascending rowid. -/
def rowLE (a b : StoredRow) : Prop :=
  b.created_at < a.created_at ∨ (a.created_at = b.created_at ∧ a.id ≤ b.id)

instance : DecidableRel rowLE := fun a b => by
  unfold rowLE; exact inferInstance

instance : IsTotal StoredRow rowLE where
  total a b := by
    rcases lt_trichotomy a.created_at b.created_at with h | h | h
    · exact Or.inr (Or.inl h)
    · rcases Int.le_total a.id b.id with h2 | h2
      · exact Or.inl (Or.inr ⟨h, h2⟩)
      · exact Or.inr (Or.inr ⟨h.symm, h2⟩)
    · exact Or.inl (Or.inl h)

instance : IsTrans StoredRow rowLE where
  trans a b c hab hbc := by
    rcases hab with hab | ⟨hab1, hab2⟩
    · rcases hbc with hbc | ⟨hbc1, hbc2⟩
      · exact Or.inl (lt_trans hbc hab)
      · exact Or.inl (hbc1 ▸ hab)
    · rcases hbc with hbc | ⟨hbc1, hbc2⟩
      · exact Or.inl (lt_of_lt_of_eq hbc hab1.symm)
      · exact Or.inr ⟨hab1.trans hbc1, hab2.trans hbc2⟩

/-- The rows in the order the `SELECT ... ORDER BY created_at DESC` queries
return them. -/
def sortRows (rows : List StoredRow) : List StoredRow :=
  List.insertionSort rowLE rows

/-- The row mapper of `ClipboardDatabase::get_all_entries` (db.rs lines
103-119): reads columns 0..4 in order and maps any tag other than `"TEXT"` to
`ContentType::Image`. -/
def decodeAllRow (vals : List SqlValue) : Except DbError ClipboardEntry := do
  let id ← (vals.getD 0 .null).asInt
  let content_type_str ← (vals.getD 1 .null).asString
  let content_type := if content_type_str = "TEXT" then ContentType.Text else ContentType.Image
  let text_content ← (vals.getD 2 .null).asOptString
  let image_path ← (vals.getD 3 .null).asOptString
  let created_at ← (vals.getD 4 .null).asString
  pure { id := some id, content_type, text_content, image_path, created_at }

/-- The row mapper of `ClipboardDatabase::get_recent_entries` (db.rs lines
130-145), exactly as written: it reads `content_type` from column 0, `id` from
column 0, `text_content` from column 1, `image_path` from column 2 and
`created_at` from column 3 — every index shifted against the SELECT list. -/
def decodeRecentRow (vals : List SqlValue) : Except DbError ClipboardEntry := do
  let content_type_str ← (vals.getD 0 .null).asString
  let content_type := if content_type_str = "TEXT" then ContentType.Text else ContentType.Image
  let id ← (vals.getD 0 .null).asOptInt
  let text_content ← (vals.getD 1 .null).asOptString
  let image_path ← (vals.getD 2 .null).asOptString
  let created_at ← (vals.getD 3 .null).asString
  pure { id, content_type, text_content, image_path, created_at }

/-- `Iterator<Item = Result<_>>::collect::<Result<Vec<_>>>`: the first error
aborts the collection. -/
def collectResults : List (Except DbError ClipboardEntry) → Except DbError (List ClipboardEntry)
  | [] => .ok []
  | .error e :: _ => .error e
  | .ok x :: rest =>
    match collectResults rest with
    | .error e => .error e
    | .ok xs => .ok (x :: xs)

/-- `ClipboardDatabase::save_entry`: inserts one row (the text variant stores
the tag `"TEXT"` with `text_content`, the image variant the tag `"IMAGE"` with
`image_path`) and returns `last_insert_rowid`. -/
def save_entry (e : ClipboardEntry) (s : DbState) : DbState × Int :=
  match e.content_type with
  | .Text =>
    (⟨s.rows ++ [⟨s.nextId, "TEXT", none, e.text_content, e.created_at⟩], s.nextId + 1⟩,
     s.nextId)
  | .Image =>
    (⟨s.rows ++ [⟨s.nextId, "IMAGE", e.image_path, none, e.created_at⟩], s.nextId + 1⟩,
     s.nextId)

/-- `ClipboardDatabase::get_all_entries`. -/
def get_all_entries (s : DbState) : Except DbError (List ClipboardEntry) :=
  collectResults ((sortRows s.rows).map (fun r => decodeAllRow (selectRow r)))

/-- `ClipboardDatabase::get_recent_entries`: `LIMIT ?1` truncates the ordered
rows before the (index-shifted) row mapper runs. -/
def get_recent_entries (limit : Nat) (s : DbState) : Except DbError (List ClipboardEntry) :=
  collectResults (((sortRows s.rows).take limit).map (fun r => decodeRecentRow (selectRow r)))

/-- `ClipboardDatabase::delete_entry`: `DELETE FROM clipboard_history WHERE
id = ?1`, and `Ok(_) => Ok(id)` — the affected-row count is discarded, so the
call reports success whether or not a row matched. -/
def delete_entry (id : Int) (s : DbState) : DbState × Except DbError Int :=
  (⟨s.rows.filter (fun r => ¬ r.id = id), s.nextId⟩, .ok id)

/-- `ClipboardDatabase::clear_all`. -/
def clear_all (s : DbState) : DbState × Except DbError Unit :=
  (⟨[], s.nextId⟩, .ok ())

/- ### Helper lemmas about the store -/

/-- The decoded form of a stored row under the correct column mapping of
`get_all_entries`. -/
def entryOfRow (r : StoredRow) : ClipboardEntry :=
  { id := some r.id
    content_type := if r.content_type = "TEXT" then .Text else .Image
    text_content := r.text_content
    image_path := r.image_path
    created_at := r.created_at }

theorem decodeAllRow_selectRow (r : StoredRow) :
    decodeAllRow (selectRow r) = .ok (entryOfRow r) := by
  cases r with
  | mk id ct ip tc ca => cases ip <;> cases tc <;> rfl

theorem collectResults_map_ok (l : List StoredRow) :
    collectResults (l.map (fun r => decodeAllRow (selectRow r))) = .ok (l.map entryOfRow) := by
  induction l with
  | nil => rfl
  | cons r rest ih =>
    simp only [List.map_cons]
    rw [decodeAllRow_selectRow]
    simp only [collectResults, ih]

theorem get_all_entries_eq (s : DbState) :
    get_all_entries s = .ok ((sortRows s.rows).map entryOfRow) := by
  unfold get_all_entries
  exact collectResults_map_ok _

/- ### C1 — append then list_recent(1) -/

/-- C1: the claim says that appending a text entry and then calling
`get_recent_entries 1` returns exactly the appended entry as a success.  In
the code this fails on every store: the row mapper of `get_recent_entries`
reads `content_type` from result column 0, which holds the INTEGER `id`, so
the conversion to `String` fails with `InvalidColumnType` and the whole call
errors.  This theorem evaluates the code at the failing input (the empty
store, then the text entry of the repository's own
`test_save_and_retrieve_entry`). -/
theorem get_recent_entries_errors_after_append :
    get_recent_entries 1
      (save_entry (ClipboardEntry.new_text_entry "Test clipboard content"
        "2024-01-01 00:00:00 UTC") ⟨[], 1⟩).1
      = .error .invalidColumnType := by
  rfl

/- ### C2 — delete semantics -/

/-- C2 (counterexample): the claim requires `delete(id)` to fail with a
`NotFound` error when no row matches.  On the empty store (which has no row
with id 1) the code reports success, returning the id. -/
theorem delete_entry_missing_id_reports_success :
    (delete_entry 1 ⟨[], 1⟩).2 = .ok 1 ∧ (⟨[], 1⟩ : DbState).rows = [] := by
  exact ⟨rfl, rfl⟩

theorem length_filter_ne_add_countP (id : Int) (l : List StoredRow) :
    (l.filter (fun r => ¬ r.id = id)).length + l.countP (fun r => r.id = id) = l.length := by
  induction l with
  | nil => rfl
  | cons a l ih =>
    by_cases h : a.id = id <;>
      simp [List.filter_cons, List.countP_cons, h] at ih ⊢ <;> omega

/-- C2 (amended): `delete_entry` always reports success, returning the id.
When no stored row has the id, the rows are unchanged; when exactly one row
has the id, exactly that row is removed and the count drops by one. -/
theorem delete_entry_spec_amended (s : DbState) (id : Int) :
    (delete_entry id s).2 = .ok id
    ∧ ((∀ r ∈ s.rows, r.id ≠ id) → (delete_entry id s).1.rows = s.rows)
    ∧ (s.rows.countP (fun r => r.id = id) = 1 →
        (delete_entry id s).1.rows.length + 1 = s.rows.length)
    ∧ (∀ r ∈ (delete_entry id s).1.rows, r.id ≠ id)
    ∧ (∀ r ∈ s.rows, r.id ≠ id → r ∈ (delete_entry id s).1.rows) := by
  refine ⟨rfl, ?_, ?_, ?_, ?_⟩
  · intro h
    simp only [delete_entry]
    exact List.filter_eq_self.mpr (by
      intro r hr
      simpa using h r hr)
  · intro h
    have h2 := length_filter_ne_add_countP id s.rows
    simp only [delete_entry]
    omega
  · intro r hr
    simp only [delete_entry] at hr
    have := List.of_mem_filter hr
    simpa using this
  · intro r hr hne
    simp only [delete_entry]
    exact List.mem_filter.mpr ⟨hr, by simpa using hne⟩

/-- C2 witness: the amended theorem at a one-row store and the id it holds. -/
theorem delete_entry_spec_amended_witness :
    ((delete_entry 7 ⟨[⟨7, "TEXT", none, some "x", "t1"⟩], 8⟩).2 = .ok 7
    ∧ ((∀ r ∈ (⟨[⟨7, "TEXT", none, some "x", "t1"⟩], 8⟩ : DbState).rows, r.id ≠ 7) →
        (delete_entry 7 ⟨[⟨7, "TEXT", none, some "x", "t1"⟩], 8⟩).1.rows
          = (⟨[⟨7, "TEXT", none, some "x", "t1"⟩], 8⟩ : DbState).rows)
    ∧ ((⟨[⟨7, "TEXT", none, some "x", "t1"⟩], 8⟩ : DbState).rows.countP
          (fun r => r.id = 7) = 1 →
        (delete_entry 7 ⟨[⟨7, "TEXT", none, some "x", "t1"⟩], 8⟩).1.rows.length + 1
          = (⟨[⟨7, "TEXT", none, some "x", "t1"⟩], 8⟩ : DbState).rows.length)
    ∧ (∀ r ∈ (delete_entry 7 ⟨[⟨7, "TEXT", none, some "x", "t1"⟩], 8⟩).1.rows, r.id ≠ 7)
    ∧ (∀ r ∈ (⟨[⟨7, "TEXT", none, some "x", "t1"⟩], 8⟩ : DbState).rows, r.id ≠ 7 →
        r ∈ (delete_entry 7 ⟨[⟨7, "TEXT", none, some "x", "t1"⟩], 8⟩).1.rows)) :=
  delete_entry_spec_amended ⟨[⟨7, "TEXT", none, some "x", "t1"⟩], 8⟩ 7

/- ### C3 — listing order -/

/-- C3: every successful `get_all_entries` result is sorted non-increasing by
`created_at`, and entries with equal `created_at` appear in ascending order of
id. -/
theorem get_all_entries_sorted (s : DbState) (l : List ClipboardEntry)
    (h : get_all_entries s = .ok l) :
    l.Pairwise (fun a b => b.created_at ≤ a.created_at
      ∧ (a.created_at = b.created_at →
          ∃ ia ib, a.id = some ia ∧ b.id = some ib ∧ ia ≤ ib)) := by
  rw [get_all_entries_eq] at h
  have hl : l = (sortRows s.rows).map entryOfRow := by
    injection h with h'
    exact h'.symm
  subst hl
  have hsorted : (sortRows s.rows).Pairwise rowLE :=
    List.sorted_insertionSort rowLE s.rows
  refine List.Pairwise.map entryOfRow ?_ hsorted
  intro a b hab
  rcases hab with hlt | ⟨heq, hid⟩
  · exact ⟨le_of_lt hlt, fun hc => absurd hc.symm (ne_of_lt hlt)⟩
  · exact ⟨le_of_eq heq.symm, fun _ => ⟨a.id, b.id, rfl, rfl, hid⟩⟩

/-- C3 witness: the sortedness theorem applied to a concrete two-row store
whose rows were inserted in the opposite of timestamp order. -/
theorem get_all_entries_sorted_witness :
    (List.map entryOfRow
      (sortRows [⟨1, "TEXT", none, some "a", "t1"⟩, ⟨2, "TEXT", none, some "b", "t2"⟩])).Pairwise
      (fun a b => b.created_at ≤ a.created_at
        ∧ (a.created_at = b.created_at →
            ∃ ia ib, a.id = some ia ∧ b.id = some ib ∧ ia ≤ ib)) :=
  get_all_entries_sorted
    ⟨[⟨1, "TEXT", none, some "a", "t1"⟩, ⟨2, "TEXT", none, some "b", "t2"⟩], 3⟩
    _ (get_all_entries_eq _)

/- ### C10 — tag fallback on read -/

/-- C10 (counterexample): the claim says any row whose `content_type` tag is
not `"TEXT"` is decoded as an Image entry and decoding never fails.  Through
`get_recent_entries` a stored row with the corrupt tag `"CORRUPT"` is not
returned as an Image entry: the call fails with `InvalidColumnType` (its row
mapper reads every column at a shifted index). -/
theorem corrupt_tag_recent_errors_example :
    get_recent_entries 1 ⟨[⟨1, "CORRUPT", some "p", none, "t"⟩], 2⟩
      = .error .invalidColumnType := by
  rfl

/-- C10 (amended): in `get_all_entries` the tag fallback holds — decoding a
stored row never fails, and any tag other than exactly `"TEXT"` yields an
Image entry; `get_recent_entries`, whose row mapper reads shifted columns,
fails on every row instead. -/
theorem get_all_tag_fallback_image :
    (∀ r : StoredRow, r.content_type ≠ "TEXT" →
      decodeAllRow (selectRow r)
        = .ok { id := some r.id, content_type := .Image,
                text_content := r.text_content, image_path := r.image_path,
                created_at := r.created_at })
    ∧ (∀ s : DbState, ∃ l, get_all_entries s = .ok l) := by
  constructor
  · intro r hr
    rw [decodeAllRow_selectRow]
    simp [entryOfRow, hr]
  · intro s
    exact ⟨_, get_all_entries_eq s⟩

/-- C10 witness: the amended theorem at a concrete corrupt-tag row and a
concrete store. -/
theorem get_all_tag_fallback_image_witness :
    decodeAllRow (selectRow ⟨1, "CORRUPT", some "p", none, "t"⟩)
      = .ok { id := some 1, content_type := .Image, text_content := none,
              image_path := some "p", created_at := "t" } :=
  get_all_tag_fallback_image.1 ⟨1, "CORRUPT", some "p", none, "t"⟩ (by decide)

/- ### Watcher model (lib.rs, model.rs) -/

/-- `ClipboardEvent` from model.rs (the clock is passed explicitly as
`timestamp`). -/
structure ClipboardEvent where
  text : String
  timestamp : Nat
deriving DecidableEq, Repr

/-- `save_clipboard_event` hands the polled event to
`ClipboardDatabase::save_entry`; the event corresponds to the text entry
carrying the event's text, with the timestamp as `created_at`. -/
def eventToEntry (e : ClipboardEvent) : ClipboardEntry :=
  { id := none
    content_type := .Text
    text_content := some e.text
    image_path := none
    created_at := toString e.timestamp }

/-- Outcome of one iteration of the polling loop in
`spawn_clipboard_polling_thread` (lib.rs lines 91-110).  `panicked` is the
`unwrap()` on a failed `save_clipboard_event` killing the thread. -/
inductive TickResult
  | skipped (lastEvent : Option ClipboardEvent) (db : DbState)
  | captured (lastEvent : Option ClipboardEvent) (db : DbState)
  | panicked
deriving DecidableEq, Repr

/-- One iteration of the polling loop: read the clipboard text (`obs`); if it
equals the last captured event's text, sleep and continue without touching
the store; otherwise build a new event, emit it, and save it —
`save_clipboard_event(...).unwrap()` panics when the save fails (`saveFails`
injects the persistence failure; the emit is external and modelled as always
succeeding, and the loop consults no change counter). -/
def watcherTick (lastEvent : Option ClipboardEvent) (db : DbState) (obs : String)
    (now : Nat) (saveFails : Bool) : TickResult :=
  match lastEvent with
  | some le =>
    if le.text = obs then .skipped lastEvent db
    else if saveFails then .panicked
    else .captured (some ⟨obs, now⟩) (save_entry (eventToEntry ⟨obs, now⟩) db).1
  | none =>
    if saveFails then .panicked
    else .captured (some ⟨obs, now⟩) (save_entry (eventToEntry ⟨obs, now⟩) db).1

/-- The polling loop run over a list of `(observed text, timestamp)` ticks
with the store succeeding throughout. -/
def runTicksOk (lastEvent : Option ClipboardEvent) (db : DbState) :
    List (String × Nat) → Option ClipboardEvent × DbState
  | [] => (lastEvent, db)
  | (obs, now) :: rest =>
    match watcherTick lastEvent db obs now false with
    | .skipped le' db' => runTicksOk le' db' rest
    | .captured le' db' => runTicksOk le' db' rest
    | .panicked => (lastEvent, db)

/- ### C4 — persistence failure during a tick -/

/-- C4 (counterexample): the claim says a failing append is non-fatal and the
loop continues.  On a fresh watcher over the empty store, a tick whose save
fails panics instead of continuing. -/
theorem watcher_tick_panics_on_save_failure_example :
    watcherTick none ⟨[], 1⟩ "hello" 0 true = .panicked
    ∧ TickResult.panicked ≠ .skipped none ⟨[], 1⟩
    ∧ TickResult.panicked ≠ .captured none ⟨[], 1⟩ :=
  ⟨rfl, by decide, by decide⟩

/-- C4 (amended): on any tick that reaches the save (the observed text
differs from the last captured event's, or there is none), a persistence
failure is fatal: `save_clipboard_event` logs and returns the error, but the
loop `unwrap()`s the result and panics, terminating the polling thread; no
entry is recorded. -/
theorem watcher_tick_save_failure_fatal (lastEvent : Option ClipboardEvent)
    (db : DbState) (obs : String) (now : Nat)
    (h : ∀ e, lastEvent = some e → e.text ≠ obs) :
    watcherTick lastEvent db obs now true = .panicked := by
  cases lastEvent with
  | none => rfl
  | some e =>
    have hne := h e rfl
    simp [watcherTick, hne]

/-- C4 witness: the fatality theorem at a concrete fresh watcher state. -/
theorem watcher_tick_save_failure_fatal_witness :
    watcherTick none ⟨[], 1⟩ "x" 0 true = .panicked :=
  watcher_tick_save_failure_fatal none ⟨[], 1⟩ "x" 0 (fun e he => by cases he)

/- ### C5 — dedup policy -/

theorem runTicksOk_all_same (t : String) :
    ∀ (ticks : List (String × Nat)) (e : ClipboardEvent) (db : DbState),
      e.text = t → (∀ p ∈ ticks, p.1 = t) →
      runTicksOk (some e) db ticks = (some e, db) := by
  intro ticks
  induction ticks with
  | nil => intro e db _ _; rfl
  | cons p rest ih =>
    intro e db he hall
    obtain ⟨obs, now⟩ := p
    have hobs : obs = t := hall (obs, now) (List.mem_cons_self _ _)
    have heq : e.text = obs := by rw [he, hobs]
    have hw : watcherTick (some e) db obs now false = .skipped (some e) db := by
      simp [watcherTick, heq]
    simp only [runTicksOk, hw]
    exact ih e db he (fun p hp => hall p (List.mem_cons_of_mem _ hp))

/-- C5: the dedup policy of the polling loop.  First, a tick observing the
same text as the last captured event skips creation and performs no store
operation (whatever the store holds — the loop consults no change counter).
Second, a nonempty run of ticks all observing the same text, started on a
fresh watcher, stores exactly one entry for that content. -/
theorem watcher_dedup_single_entry :
    (∀ (e : ClipboardEvent) (db : DbState) (obs : String) (now : Nat),
      e.text = obs →
      watcherTick (some e) db obs now false = .skipped (some e) db)
    ∧ (∀ (db : DbState) (t : String) (ticks : List (String × Nat)),
        ticks ≠ [] → (∀ p ∈ ticks, p.1 = t) →
        (runTicksOk none db ticks).2.rows.length = db.rows.length + 1) := by
  constructor
  · intro e db obs now he
    simp [watcherTick, he]
  · intro db t ticks hne hall
    cases ticks with
    | nil => exact absurd rfl hne
    | cons p rest =>
      obtain ⟨obs, now⟩ := p
      have hobs : obs = t := hall (obs, now) (List.mem_cons_self _ _)
      have hw : watcherTick none db obs now false
          = .captured (some ⟨obs, now⟩) (save_entry (eventToEntry ⟨obs, now⟩) db).1 := rfl
      simp only [runTicksOk, hw]
      rw [runTicksOk_all_same t rest ⟨obs, now⟩ _ hobs
        (fun p hp => hall p (List.mem_cons_of_mem _ hp))]
      simp [save_entry, eventToEntry]

/-- C5 witness: two consecutive ticks observing the same text on a fresh
watcher add exactly one row. -/
theorem watcher_dedup_single_entry_witness :
    (runTicksOk none ⟨[], 1⟩ [("a", 0), ("a", 1)]).2.rows.length
      = (⟨[], 1⟩ : DbState).rows.length + 1 :=
  watcher_dedup_single_entry.2 ⟨[], 1⟩ "a" [("a", 0), ("a", 1)] (by decide)
    (by intro p hp; simp at hp; rcases hp with rfl | rfl <;> rfl)

/- ### SearchRanker model (fzf.rs) -/

def INITIAL_SCORE : Int := 5
def BOUNDARY_SCORE : Int := 3
def CAMEL_CASE_SCORE : Int := 2
def MATCH_SCORE : Int := 10
def GAP_SCORE : Int := -2
def NO_SCORE : Int := -10000

/-- The boundary characters of `calculate_bonus_score`. -/
def boundaryChar (c : Char) : Bool :=
  c = '/' || c = '_' || c = '-' || c = '.' || c = ' '

/-- Rust `char::is_lowercase` restricted to the Latin-1 range, where these
ranges are exact (`a`-`z`, `ª`, `µ`, `º`, `ß`-`ö`, `ø`-`ÿ`).  Beyond Latin-1
the Unicode property tables are out of scope; no theorem's truth rests on
this instance for such characters — the bonus-table structure (C6) is proven
generically over the case predicates (see `bonusAtWith`), and this
executable instance is used only where specific concrete characters occur. -/
def rustIsLowercase (c : Char) : Bool :=
  (97 ≤ c.toNat && c.toNat ≤ 122) || c.toNat = 170 || c.toNat = 181
    || c.toNat = 186 || (223 ≤ c.toNat && c.toNat ≤ 246)
    || (248 ≤ c.toNat && c.toNat ≤ 255)

/-- Rust `char::is_uppercase` restricted to the Latin-1 range, where these
ranges are exact (`A`-`Z`, `À`-`Ö`, `Ø`-`Þ`); see `rustIsLowercase` for the
treatment of characters beyond Latin-1. -/
def rustIsUppercase (c : Char) : Bool :=
  (65 ≤ c.toNat && c.toNat ≤ 90) || (192 ≤ c.toNat && c.toNat ≤ 214)
    || (216 ≤ c.toNat && c.toNat ≤ 222)

/-- Rust `char::to_ascii_lowercase`: maps only `'A'..='Z'`; every other
character, in particular every non-ASCII character, is unchanged. -/
def toAsciiLowercase (c : Char) : Char :=
  if 65 ≤ c.toNat ∧ c.toNat ≤ 90 then Char.ofNat (c.toNat + 32) else c

/-- Rust `char::eq_ignore_ascii_case`. -/
def eqIgnoreAsciiCase (a b : Char) : Bool :=
  toAsciiLowercase a = toAsciiLowercase b

/-- The bonus of one text position, from the loop body of
`calculate_bonus_score` (fzf.rs lines 16-30), generic in the two case
predicates: position 0 gets `INITIAL_SCORE`; at later positions the boundary
check writes `BOUNDARY_SCORE`, and the camel-case check runs second and
overwrites with `CAMEL_CASE_SCORE` when it matches.  Rust's
`char::is_lowercase`/`char::is_uppercase` are full-Unicode properties whose
tables are out of scope, so the table structure is proven for every choice
of the predicates — in particular the true Unicode ones. -/
def bonusAtWith (isLow isUp : Char → Bool) (text : List Char) (i : Nat) : Int :=
  if i = 0 then INITIAL_SCORE
  else
    let prev := text.getD (i - 1) ' '
    let c := text.getD i ' '
    let s := if boundaryChar prev then BOUNDARY_SCORE else 0
    if isLow prev && isUp c then CAMEL_CASE_SCORE else s

/-- The bonus as executed in this development: `bonusAtWith` at the Latin-1
instances of the Rust case predicates. -/
def bonusAt : List Char → Nat → Int :=
  bonusAtWith rustIsLowercase rustIsUppercase

/-- `calculate_bonus_score`.  (The Rust code sizes the vector by the UTF-8
byte length of the text and writes only the character positions; the trailing
cells stay zero, are never read by the scorer, and cannot raise the row
maximum, so the table is modelled at character positions.) -/
def calculate_bonus_score (text : List Char) : List Int :=
  (List.range text.length).map (bonusAt text)

/-- The bonus table generic in the case predicates; `calculate_bonus_score`
is its instance at the Latin-1 predicates (second conjunct of
`bonus_table_spec`). -/
def calculate_bonus_score_with (isLow isUp : Char → Bool) (text : List Char) : List Int :=
  (List.range text.length).map (bonusAtWith isLow isUp text)

/-- The inner loop of `calculate_fzf_score` (fzf.rs lines 44-67) over one
row: walks the text, the bonus table and the previous row in step, carrying
`current_best_score` (`best`) and the previous row's cell one position back
(`prevLeft`, absent at position 0).  In the first query row (`isFirst`) the
best score is reset to 0 at every position; otherwise the carried best first
pays the gap penalty when above the sentinel and is then raised to
`prev_score[j-1]` when that is larger.  A cell is written (over the sentinel)
only on a case-insensitive match.  The `current_best_score` update is split
out as `nextBest`: on the first query row it is reset to 0; otherwise the
carried best first pays the gap penalty when above the sentinel and is then
raised to the previous row's cell one position back when that is larger. -/
def nextBest (isFirst : Bool) (best : Int) (prevLeft : Option Int) : Int :=
  if isFirst then 0
  else
    let b2 := if best > NO_SCORE then best + GAP_SCORE else best
    match prevLeft with
    | none => b2
    | some pl => if pl > b2 then pl else b2

def fzfRowGo (isFirst : Bool) (qc : Char) :
    List Char → List Int → List Int → Int → Option Int → List Int
  | t :: ts, b :: bs, p :: ps, best, prevLeft =>
    let best1 : Int := nextBest isFirst best prevLeft
    (if eqIgnoreAsciiCase qc t then best1 + b + MATCH_SCORE else NO_SCORE)
      :: fzfRowGo isFirst qc ts bs ps best1 (some p)
  | _, _, _, _, _ => []

/-- One query-character row of `calculate_fzf_score`. -/
def fzfStep (isFirst : Bool) (text : List Char) (bonus prevRow : List Int)
    (qc : Char) : List Int :=
  fzfRowGo isFirst qc text bonus prevRow NO_SCORE none

/-- The row-by-row outer loop of `calculate_fzf_score`. -/
def fzfRows (text : List Char) (bonus : List Int) : Bool → List Int → List Char → List Int
  | _, prev, [] => prev
  | isFirst, prev, qc :: qs =>
    fzfRows text bonus false (fzfStep isFirst text bonus prev qc) qs

/-- `calculate_fzf_score`: the final row of the dynamic program (one best
score per text end-position for the whole query; all sentinel when the query
is empty). -/
def calculate_fzf_score (text query : List Char) : List Int :=
  fzfRows text (calculate_bonus_score text) true (List.replicate text.length NO_SCORE) query

/-- The exposed score of a (text, query) pair: the maximum of the final row,
or the sentinel when the row is empty (spec §4.4; the repository's tests read
it as `scores.iter().max()`). -/
def fzfMaxScore (text query : List Char) : Int :=
  (calculate_fzf_score text query).foldr max NO_SCORE

/- ### C6 — the bonus table -/

/-- C6: for every choice of the lowercase/uppercase predicates — in
particular Rust's full-Unicode `char::is_lowercase` and
`char::is_uppercase` — the bonus table assigns `INITIAL_SCORE` to position
0; at every later position the camel-case bonus applies when an uppercase
character follows a lowercase one, otherwise the boundary bonus applies when
the preceding character is one of `/`, `_`, `-`, `.`, space, and otherwise
the bonus is zero — so the camel-case bonus wins whenever both conditions
hold.  The second conjunct anchors the development's executable table as the
instance at the Latin-1 case predicates. -/
theorem bonus_table_spec :
    (∀ (isLow isUp : Char → Bool) (text : List Char) (i : Nat), i < text.length →
      (calculate_bonus_score_with isLow isUp text).getD i 0 =
        if i = 0 then INITIAL_SCORE
        else if isLow (text.getD (i - 1) ' ')
            && isUp (text.getD i ' ') then CAMEL_CASE_SCORE
        else if boundaryChar (text.getD (i - 1) ' ') then BOUNDARY_SCORE
        else 0)
    ∧ calculate_bonus_score
        = calculate_bonus_score_with rustIsLowercase rustIsUppercase := by
  constructor
  · intro isLow isUp text i h
    have h1 : (calculate_bonus_score_with isLow isUp text).getD i 0
        = bonusAtWith isLow isUp text i := by
      unfold calculate_bonus_score_with
      rw [List.getD_eq_getElem _ _ (by simpa using h)]
      simp
    rw [h1]
    unfold bonusAtWith
    by_cases h0 : i = 0 <;> simp [h0]
  · rfl

/-- C6 witness: the bonus-table theorem at the Latin-1 case predicates, the
text `"aB"` and position 1 (the camel-case branch). -/
theorem bonus_table_spec_witness :
    (calculate_bonus_score_with rustIsLowercase rustIsUppercase ['a', 'B']).getD 1 0 =
      if (1 : Nat) = 0 then INITIAL_SCORE
      else if rustIsLowercase ((['a', 'B'] : List Char).getD (1 - 1) ' ')
          && rustIsUppercase ((['a', 'B'] : List Char).getD 1 ' ') then CAMEL_CASE_SCORE
      else if boundaryChar ((['a', 'B'] : List Char).getD (1 - 1) ' ') then BOUNDARY_SCORE
      else 0 :=
  bonus_table_spec.1 rustIsLowercase rustIsUppercase ['a', 'B'] 1 (by decide)

/- ### C7 — the no-match sentinel -/

/-- C7 (counterexample): the query `"xa"` has a character (`'x'`) with no
case-insensitive occurrence in the text `"a"`, yet the final score row is
`[-9985]`, not all sentinel: over an all-sentinel row, a later matching query
character still writes `NO_SCORE + bonus + MATCH_SCORE`. -/
theorem missing_query_char_not_sentinel_example :
    calculate_fzf_score ['a'] ['x', 'a'] = [-9985]
    ∧ (['a'] : List Char).all (fun tc => !eqIgnoreAsciiCase 'x' tc) = true
    ∧ (-9985 : Int) ≠ NO_SCORE :=
  ⟨by decide, by decide, by decide⟩

/-- A row computed for a query character that matches no text character
consists of sentinel cells only, whatever the carried state. -/
theorem fzfRowGo_no_match (isFirst : Bool) (qc : Char) :
    ∀ (ts : List Char) (bs ps : List Int) (best : Int) (pl : Option Int),
      (∀ t ∈ ts, eqIgnoreAsciiCase qc t = false) →
      ∀ x ∈ fzfRowGo isFirst qc ts bs ps best pl, x = NO_SCORE := by
  intro ts
  induction ts with
  | nil => intro bs ps best pl _ x hx; simp [fzfRowGo] at hx
  | cons t ts ih =>
    intro bs ps best pl hno x hx
    cases bs with
    | nil => simp [fzfRowGo] at hx
    | cons b bs =>
      cases ps with
      | nil => simp [fzfRowGo] at hx
      | cons p ps =>
        have h0 := hno t (List.mem_cons_self _ _)
        simp only [fzfRowGo, h0] at hx
        simp only [Bool.false_eq_true, if_false] at hx
        rcases List.mem_cons.mp hx with rfl | hx'
        · rfl
        · exact ih bs ps _ _ (fun u hu => hno u (List.mem_cons_of_mem _ hu)) x hx'

/-- When the last query character matches nowhere in the text, the final row
of the dynamic program is all sentinel. -/
theorem fzfRows_last_no_match (text : List Char) (bonus : List Int) (qc : Char)
    (hno : ∀ t ∈ text, eqIgnoreAsciiCase qc t = false) :
    ∀ (qs : List Char) (isFirst : Bool) (prev : List Int),
      ∀ x ∈ fzfRows text bonus isFirst prev (qs ++ [qc]), x = NO_SCORE := by
  intro qs
  induction qs with
  | nil =>
    intro isFirst prev x hx
    simp only [List.nil_append, fzfRows, fzfStep] at hx
    exact fzfRowGo_no_match isFirst qc text bonus prev NO_SCORE none hno x hx
  | cons q qs ih =>
    intro isFirst prev x hx
    simp only [List.cons_append, fzfRows] at hx
    exact ih false _ x hx

theorem foldr_max_replicate (n : Nat) :
    (List.replicate n NO_SCORE).foldr max NO_SCORE = NO_SCORE := by
  induction n with
  | zero => rfl
  | succ n ih => simp [List.replicate_succ, ih]

/-- C7 (amended): when the LAST character of the query has no
case-insensitive occurrence in the text, every position of the final score
row is the sentinel.  (When only an earlier character is unmatched, later
matching characters can still write non-sentinel values over the dead row,
so the original "some character" form fails.)  For an empty query the
exposed score — the maximum of the final row — is the sentinel. -/
theorem fzf_sentinel_spec_amended :
    (∀ (T Q : List Char) (qc : Char), Q.getLast? = some qc →
      (∀ t ∈ T, eqIgnoreAsciiCase qc t = false) →
      ∀ x ∈ calculate_fzf_score T Q, x = NO_SCORE)
    ∧ (∀ T : List Char, fzfMaxScore T [] = NO_SCORE) := by
  constructor
  · intro T Q qc hlast hno x hx
    have hsplit : Q.dropLast ++ [qc] = Q :=
      List.dropLast_append_getLast? qc hlast
    rw [calculate_fzf_score, ← hsplit] at hx
    exact fzfRows_last_no_match T (calculate_bonus_score T) qc hno Q.dropLast true _ x hx
  · intro T
    unfold fzfMaxScore calculate_fzf_score fzfRows
    exact foldr_max_replicate T.length

/-- C7 witness: the amended theorem at text `"a"`, query `"b"` (whose last
character matches nowhere), read at position 0. -/
theorem fzf_sentinel_spec_amended_witness :
    (calculate_fzf_score ['a'] ['b']).getD 0 0 = NO_SCORE :=
  fzf_sentinel_spec_amended.1 ['a'] ['b'] 'b' rfl (by decide)
    ((calculate_fzf_score ['a'] ['b']).getD 0 0) (by decide)

/- ### C9 — ASCII-only case folding -/

/-- C9 (counterexample): `'É'` and `'é'` differ only in case and indeed never
match, but the query `"Éé"` — which contains `'É'` — scores `-9985`, not the
sentinel, against the text `"é"` holding only the other case: the claim's
consequence fails when the non-ASCII character is not the last query
character. -/
theorem nonascii_case_query_not_sentinel_example :
    eqIgnoreAsciiCase 'É' 'é' = false
    ∧ calculate_fzf_score ['é'] ['É', 'é'] = [-9985]
    ∧ fzfMaxScore ['é'] ['É', 'é'] = -9985
    ∧ (-9985 : Int) ≠ NO_SCORE :=
  ⟨by decide, by decide, by decide, by decide⟩

/-- `eq_ignore_ascii_case` lowercases only ASCII letters, so two distinct
non-ASCII characters never compare equal under it. -/
theorem eqIgnoreAsciiCase_nonascii (c1 c2 : Char) (h1 : 128 ≤ c1.toNat)
    (h2 : 128 ≤ c2.toNat) (hne : c1 ≠ c2) : eqIgnoreAsciiCase c1 c2 = false := by
  unfold eqIgnoreAsciiCase toAsciiLowercase
  rw [if_neg (by omega), if_neg (by omega)]
  exact decide_eq_false hne

/-- C9 (amended): case-insensitive matching is ASCII-only — two distinct
non-ASCII characters never match, even when they differ only in case — and a
query whose LAST character is such a character scores the sentinel at every
position of the final row against a text holding only the other case.  (A
query merely containing such a character in an earlier position can still
score non-sentinel values — see the counterexample.) -/
theorem ascii_only_case_matching :
    (∀ c1 c2 : Char, 128 ≤ c1.toNat → 128 ≤ c2.toNat → c1 ≠ c2 →
      eqIgnoreAsciiCase c1 c2 = false)
    ∧ (∀ (T Q : List Char) (c1 : Char), 128 ≤ c1.toNat → Q.getLast? = some c1 →
        (∀ t ∈ T, 128 ≤ t.toNat ∧ t ≠ c1) →
        ∀ x ∈ calculate_fzf_score T Q, x = NO_SCORE) := by
  constructor
  · exact eqIgnoreAsciiCase_nonascii
  · intro T Q c1 h1 hlast hT x hx
    have hsplit : Q.dropLast ++ [c1] = Q :=
      List.dropLast_append_getLast? c1 hlast
    rw [calculate_fzf_score, ← hsplit] at hx
    refine fzfRows_last_no_match T (calculate_bonus_score T) c1 ?_ Q.dropLast true _ x hx
    intro t ht
    exact eqIgnoreAsciiCase_nonascii c1 t h1 (hT t ht).1 (fun hc => (hT t ht).2 hc.symm)

/-- C9 witness: the amended theorem at `'É'` versus `'é'` and at the
one-character query `"É"` against the text `"é"`. -/
theorem ascii_only_case_matching_witness :
    eqIgnoreAsciiCase 'É' 'é' = false
    ∧ (calculate_fzf_score ['é'] ['É']).getD 0 0 = NO_SCORE :=
  ⟨ascii_only_case_matching.1 'É' 'é' (by decide) (by decide) (by decide),
   ascii_only_case_matching.2 ['é'] ['É'] 'É' (by decide) rfl
     (by intro t ht; simp only [List.mem_singleton] at ht; subst ht
         exact ⟨by decide, by decide⟩)
     ((calculate_fzf_score ['é'] ['É']).getD 0 0) (by decide)⟩

/- ### C8 — exact match is never beaten by a proper subsequence -/

theorem bonusAt_nonneg (text : List Char) (i : Nat) : 0 ≤ bonusAt text i := by
  unfold bonusAt bonusAtWith INITIAL_SCORE BOUNDARY_SCORE CAMEL_CASE_SCORE
  split
  · norm_num
  · dsimp only
    split
    · norm_num
    · split <;> norm_num

theorem bonusAt_le_five (text : List Char) (i : Nat) : bonusAt text i ≤ 5 := by
  unfold bonusAt bonusAtWith INITIAL_SCORE BOUNDARY_SCORE CAMEL_CASE_SCORE
  split
  · norm_num
  · dsimp only
    split
    · norm_num
    · split <;> norm_num

theorem calculate_bonus_score_nonneg (text : List Char) :
    ∀ b ∈ calculate_bonus_score text, 0 ≤ b := by
  intro b hb
  unfold calculate_bonus_score at hb
  obtain ⟨i, _, rfl⟩ := List.mem_map.mp hb
  exact bonusAt_nonneg text i

theorem calculate_bonus_score_length (text : List Char) :
    (calculate_bonus_score text).length = text.length := by
  simp [calculate_bonus_score]

theorem sum_take_nonneg (l : List Int) (h : ∀ b ∈ l, 0 ≤ b) (m : Nat) :
    0 ≤ (l.take m).sum :=
  List.sum_nonneg (fun x hx => h x (List.take_subset m l hx))

theorem sum_take_le_sum (l : List Int) (h : ∀ b ∈ l, 0 ≤ b) (m : Nat) :
    (l.take m).sum ≤ l.sum := by
  conv_rhs => rw [← List.take_append_drop m l]
  rw [List.sum_append]
  have h0 : 0 ≤ (l.drop m).sum :=
    List.sum_nonneg (fun x hx => h x (List.drop_subset m l hx))
  omega

theorem nextBest_le (isFirst : Bool) (best : Int) (pl : Option Int) (M : Int)
    (hM : 0 ≤ M) (hbest : best ≤ M) (hpl : ∀ x, pl = some x → x ≤ M) :
    nextBest isFirst best pl ≤ M := by
  unfold nextBest GAP_SCORE
  cases isFirst with
  | true => simpa using hM
  | false =>
    simp only [Bool.false_eq_true, if_false]
    have hb2 : (if best > NO_SCORE then best + -2 else best) ≤ M := by
      split <;> omega
    cases pl with
    | none => exact hb2
    | some x =>
      have hx := hpl x rfl
      dsimp only
      split <;> omega

theorem nextBest_ge_prevLeft (best x : Int) :
    x ≤ nextBest false best (some x) := by
  unfold nextBest
  simp only [Bool.false_eq_true, if_false]
  split <;> omega

theorem fzfRowGo_length (isFirst : Bool) (qc : Char) :
    ∀ (ts : List Char) (bs ps : List Int) (best : Int) (pl : Option Int),
      (fzfRowGo isFirst qc ts bs ps best pl).length
        = min ts.length (min bs.length ps.length) := by
  intro ts
  induction ts with
  | nil => intro bs ps best pl; simp [fzfRowGo]
  | cons t ts ih =>
    intro bs ps best pl
    cases bs with
    | nil => simp [fzfRowGo]
    | cons b bs =>
      cases ps with
      | nil => simp [fzfRowGo]
      | cons p ps =>
        simp only [fzfRowGo, List.length_cons, ih]
        omega

theorem fzfRowGo_upper (isFirst : Bool) (qc : Char) (i : Nat) :
    ∀ (ts : List Char) (bs ps : List Int) (best : Int) (pl : Option Int) (acc : Int),
      0 ≤ acc →
      (∀ b ∈ bs, 0 ≤ b) →
      best ≤ 10 * (i : Int) + acc →
      (∀ x, pl = some x → x ≤ 10 * (i : Int) + acc) →
      (∀ k, ps.getD k 0 ≤ 10 * (i : Int) + acc + (bs.take (k+1)).sum) →
      ∀ k, (fzfRowGo isFirst qc ts bs ps best pl).getD k 0
        ≤ 10 * ((i : Int) + 1) + acc + (bs.take (k+1)).sum := by
  intro ts
  induction ts with
  | nil =>
    intro bs ps best pl acc hacc hbs _ _ _ k
    have h1 : 0 ≤ (bs.take (k+1)).sum := sum_take_nonneg bs hbs (k+1)
    have h2 : (0:Int) ≤ 10 * (i:Int) := by positivity
    simp only [fzfRowGo, List.getD_nil]
    omega
  | cons t ts ih =>
    intro bs ps best pl acc hacc hbs hbest hpl hps k
    cases bs with
    | nil =>
      have h2 : (0:Int) ≤ 10 * (i:Int) := by positivity
      simp only [fzfRowGo, List.getD_nil, List.take_nil, List.sum_nil]
      omega
    | cons b bs =>
      cases ps with
      | nil =>
        have h1 : 0 ≤ ((b :: bs).take (k+1)).sum := sum_take_nonneg _ hbs (k+1)
        have h2 : (0:Int) ≤ 10 * (i:Int) := by positivity
        simp only [fzfRowGo, List.getD_nil]
        omega
      | cons p ps =>
        have hb : 0 ≤ b := hbs b (List.mem_cons_self _ _)
        have h2 : (0:Int) ≤ 10 * (i:Int) := by positivity
        have hnb : nextBest isFirst best pl ≤ 10 * (i:Int) + acc :=
          nextBest_le isFirst best pl _ (by omega) hbest hpl
        cases k with
        | zero =>
          simp only [fzfRowGo, List.getD_cons_zero, List.take_succ_cons,
            List.take_zero, List.sum_cons, List.sum_nil]
          split
          · unfold MATCH_SCORE
            omega
          · unfold NO_SCORE
            omega
        | succ k =>
          simp only [fzfRowGo, List.getD_cons_succ]
          have hp0 := hps 0
          simp only [List.getD_cons_zero, List.take_succ_cons, List.take_zero,
            List.sum_cons, List.sum_nil] at hp0
          have hrec := ih bs ps (nextBest isFirst best pl) (some p) (acc + b)
            (by omega)
            (fun x hx => hbs x (List.mem_cons_of_mem _ hx))
            (by omega)
            (by intro x hx
                injection hx with hx
                omega)
            (by intro m
                have := hps (m+1)
                simp only [List.getD_cons_succ, List.take_succ_cons, List.sum_cons] at this
                omega)
            k
          simp only [List.take_succ_cons, List.sum_cons]
          omega

theorem fzfStep_upper (isFirst : Bool) (text : List Char) (bonus prev : List Int)
    (qc : Char) (i : Nat)
    (hbs : ∀ b ∈ bonus, 0 ≤ b)
    (hprev : ∀ k, prev.getD k 0 ≤ 10 * (i : Int) + (bonus.take (k+1)).sum) :
    ∀ k, (fzfStep isFirst text bonus prev qc).getD k 0
      ≤ 10 * ((i : Int) + 1) + (bonus.take (k+1)).sum := by
  intro k
  have h2 : (0:Int) ≤ 10 * (i:Int) := by positivity
  have h := fzfRowGo_upper isFirst qc i text bonus prev NO_SCORE none 0
    le_rfl hbs (by unfold NO_SCORE; omega)
    (by intro x hx; cases hx)
    (by intro m; have := hprev m; omega)
    k
  unfold fzfStep
  omega

theorem fzfRows_upper (text : List Char) (bonus : List Int)
    (hbs : ∀ b ∈ bonus, 0 ≤ b) :
    ∀ (qs : List Char) (isFirst : Bool) (prev : List Int) (i : Nat),
      (∀ k, prev.getD k 0 ≤ 10 * (i : Int) + (bonus.take (k+1)).sum) →
      ∀ k, (fzfRows text bonus isFirst prev qs).getD k 0
        ≤ 10 * ((i : Int) + qs.length) + (bonus.take (k+1)).sum := by
  intro qs
  induction qs with
  | nil =>
    intro isFirst prev i hprev k
    have := hprev k
    simp only [fzfRows, List.length_nil]
    push_cast
    omega
  | cons q qs ih =>
    intro isFirst prev i hprev k
    simp only [fzfRows]
    have h := ih false (fzfStep isFirst text bonus prev q) (i+1)
      (by intro m
          have := fzfStep_upper isFirst text bonus prev q i hbs hprev m
          push_cast
          omega)
      k
    simp only [List.length_cons]
    push_cast at h ⊢
    omega

theorem replicate_NO_SCORE_getD_nonpos : ∀ (n m : Nat),
    (List.replicate n NO_SCORE).getD m 0 ≤ 0 := by
  intro n
  induction n with
  | zero => intro m; simp [List.getD_nil]
  | succ n ih =>
    intro m
    cases m with
    | zero =>
      simp only [List.replicate_succ, List.getD_cons_zero]
      norm_num [NO_SCORE]
    | succ m =>
      simp only [List.replicate_succ, List.getD_cons_succ]
      exact ih m

theorem calculate_fzf_score_upper (text query : List Char) :
    ∀ k, (calculate_fzf_score text query).getD k 0
      ≤ 10 * (query.length : Int) + (calculate_bonus_score text).sum := by
  intro k
  have hbs := calculate_bonus_score_nonneg text
  have h := fzfRows_upper text (calculate_bonus_score text) hbs query true
    (List.replicate text.length NO_SCORE) 0
    (by intro m
        have h1 := replicate_NO_SCORE_getD_nonpos text.length m
        have h2 := sum_take_nonneg _ hbs (m+1)
        omega)
    k
  have h3 := sum_take_le_sum _ hbs (k+1)
  unfold calculate_fzf_score
  push_cast at h
  omega

theorem foldr_max_le (c : Int) (hc : NO_SCORE ≤ c) :
    ∀ (l : List Int), (∀ x ∈ l, x ≤ c) → l.foldr max NO_SCORE ≤ c := by
  intro l
  induction l with
  | nil => intro _; simpa using hc
  | cons a l ih =>
    intro h
    simp only [List.foldr_cons]
    exact max_le (h a (List.mem_cons_self _ _))
      (ih (fun x hx => h x (List.mem_cons_of_mem _ hx)))

theorem le_foldr_max : ∀ (l : List Int) (x : Int), x ∈ l → x ≤ l.foldr max NO_SCORE := by
  intro l
  induction l with
  | nil => intro x hx; cases hx
  | cons a l ih =>
    intro x hx
    simp only [List.foldr_cons]
    rcases List.mem_cons.mp hx with rfl | hx'
    · exact le_max_left _ _
    · exact le_trans (ih x hx') (le_max_right _ _)

theorem forall_mem_of_forall_getD (l : List Int) (c : Int)
    (h : ∀ k, l.getD k 0 ≤ c) : ∀ x ∈ l, x ≤ c := by
  intro x hx
  obtain ⟨k, hk, rfl⟩ := List.mem_iff_getElem.mp hx
  have := h k
  rwa [List.getD_eq_getElem _ _ hk] at this

theorem fzfMaxScore_upper (text query : List Char) :
    fzfMaxScore text query
      ≤ 10 * (query.length : Int) + (calculate_bonus_score text).sum := by
  have hbs := calculate_bonus_score_nonneg text
  have hB : 0 ≤ (calculate_bonus_score text).sum := List.sum_nonneg hbs
  have h0 : (0:Int) ≤ 10 * (query.length : Int) := by positivity
  unfold fzfMaxScore
  apply foldr_max_le
  · unfold NO_SCORE; omega
  · exact forall_mem_of_forall_getD _ _ (calculate_fzf_score_upper text query)

theorem eqIgnoreAsciiCase_refl (c : Char) : eqIgnoreAsciiCase c c = true := by
  unfold eqIgnoreAsciiCase
  simp

theorem fzfRows_length (text : List Char) (bonus : List Int)
    (hb : bonus.length = text.length) :
    ∀ (qs : List Char) (isFirst : Bool) (prev : List Int),
      prev.length = text.length →
      (fzfRows text bonus isFirst prev qs).length = text.length := by
  intro qs
  induction qs with
  | nil => intro isFirst prev h; simpa [fzfRows] using h
  | cons q qs ih =>
    intro isFirst prev h
    simp only [fzfRows]
    apply ih
    simp [fzfStep, fzfRowGo_length, hb, h]

theorem calculate_fzf_score_length (text query : List Char) :
    (calculate_fzf_score text query).length = text.length := by
  unfold calculate_fzf_score
  exact fzfRows_length text (calculate_bonus_score text)
    (calculate_bonus_score_length text) query true _ (List.length_replicate _ _)

theorem fzfRowGo_first_getD0 (qc : Char) (ts : List Char) (bs ps : List Int)
    (best : Int) (pl : Option Int)
    (h1 : 0 < ts.length) (h2 : 0 < bs.length) (h3 : 0 < ps.length)
    (hm : eqIgnoreAsciiCase qc (ts.getD 0 ' ') = true) :
    (fzfRowGo true qc ts bs ps best pl).getD 0 0 = bs.getD 0 0 + MATCH_SCORE := by
  cases ts with
  | nil => simp at h1
  | cons t ts =>
    cases bs with
    | nil => simp at h2
    | cons b bs =>
      cases ps with
      | nil => simp at h3
      | cons p ps =>
        simp only [List.getD_cons_zero] at hm
        simp only [fzfRowGo, hm, if_true, List.getD_cons_zero]
        unfold nextBest
        simp

theorem fzfRowGo_diag_ge (qc : Char) :
    ∀ (k : Nat) (ts : List Char) (bs ps : List Int) (best : Int) (pl : Option Int),
      k + 1 < ts.length → k + 1 < bs.length → k + 1 < ps.length →
      eqIgnoreAsciiCase qc (ts.getD (k+1) ' ') = true →
      ps.getD k 0 + bs.getD (k+1) 0 + MATCH_SCORE
        ≤ (fzfRowGo false qc ts bs ps best pl).getD (k+1) 0 := by
  intro k
  induction k with
  | zero =>
    intro ts bs ps best pl h1 h2 h3 hm
    cases ts with
    | nil => simp at h1
    | cons t0 ts =>
      cases ts with
      | nil => simp at h1
      | cons t1 ts =>
        cases bs with
        | nil => simp at h2
        | cons b0 bs =>
          cases bs with
          | nil => simp at h2
          | cons b1 bs =>
            cases ps with
            | nil => simp at h3
            | cons p0 ps =>
              cases ps with
              | nil => simp at h3
              | cons p1 ps =>
                simp only [List.getD_cons_succ, List.getD_cons_zero] at hm ⊢
                simp only [fzfRowGo, List.getD_cons_succ, List.getD_cons_zero, hm, if_true]
                have := nextBest_ge_prevLeft (nextBest false best pl) p0
                omega
  | succ k ih =>
    intro ts bs ps best pl h1 h2 h3 hm
    cases ts with
    | nil => simp at h1
    | cons t ts =>
      cases bs with
      | nil => simp at h2
      | cons b bs =>
        cases ps with
        | nil => simp at h3
        | cons p ps =>
          simp only [List.length_cons] at h1 h2 h3
          simp only [List.getD_cons_succ] at hm ⊢
          simp only [fzfRowGo, List.getD_cons_succ]
          exact ih ts bs ps (nextBest false best pl) (some p)
            (by omega) (by omega) (by omega) hm

theorem fzfRows_diag (T : List Char) :
    ∀ (qs : List Char) (j : Nat) (prev : List Int),
      qs = T.drop j →
      1 ≤ j → j ≤ T.length →
      prev.length = T.length →
      10 * (j : Int) + ((calculate_bonus_score T).take j).sum ≤ prev.getD (j-1) 0 →
      10 * (T.length : Int) + ((calculate_bonus_score T).take T.length).sum
        ≤ (fzfRows T (calculate_bonus_score T) false prev qs).getD (T.length - 1) 0 := by
  intro qs
  induction qs with
  | nil =>
    intro j prev hqs hj1 hjle hplen hbound
    have hjlen : T.length ≤ j := List.drop_eq_nil_iff.mp hqs.symm
    have hj : j = T.length := le_antisymm hjle hjlen
    subst hj
    simpa [fzfRows] using hbound
  | cons qc qs ih =>
    intro j prev hqs hj1 hjle hplen hbound
    have hjlt : j < T.length := by
      rcases Nat.lt_or_ge j T.length with h | h
      · exact h
      · rw [List.drop_eq_nil_of_le h] at hqs
        cases hqs
    have hdrop := List.drop_eq_getElem_cons hjlt
    rw [hdrop] at hqs
    injection hqs with hqc hqs
    have hblen := calculate_bonus_score_length T
    have hrowlen : (fzfStep false T (calculate_bonus_score T) prev qc).length
        = T.length := by
      simp [fzfStep, fzfRowGo_length, hblen, hplen]
    have hmatch : eqIgnoreAsciiCase qc (T.getD j ' ') = true := by
      rw [List.getD_eq_getElem _ _ hjlt, hqc]
      exact eqIgnoreAsciiCase_refl _
    obtain ⟨k, hk⟩ : ∃ k, j = k + 1 := ⟨j - 1, by omega⟩
    have hdiag := fzfRowGo_diag_ge qc k T (calculate_bonus_score T) prev NO_SCORE none
      (by omega) (by omega) (by omega) (by rw [← hk]; exact hmatch)
    have hsum := List.sum_take_succ (calculate_bonus_score T) j
      (show j < (calculate_bonus_score T).length by omega)
    have hgetDj := List.getD_eq_getElem (calculate_bonus_score T) 0
      (show j < (calculate_bonus_score T).length by omega)
    rw [← hgetDj] at hsum
    simp only [fzfRows]
    refine ih (j+1) (fzfStep false T (calculate_bonus_score T) prev qc)
      hqs (by omega) (by omega) hrowlen ?_
    unfold fzfStep
    unfold MATCH_SCORE at hdiag
    rw [hk] at hsum hbound ⊢
    simp only [Nat.add_sub_cancel] at hbound ⊢
    push_cast at hbound ⊢
    omega

theorem fzfMaxScore_diag_lower (T : List Char) (hT : T ≠ []) :
    10 * (T.length : Int) + (calculate_bonus_score T).sum ≤ fzfMaxScore T T := by
  obtain ⟨t0, T', rfl⟩ : ∃ t0 T', T = t0 :: T' := by
    cases T with
    | nil => exact absurd rfl hT
    | cons a l => exact ⟨a, l, rfl⟩
  have hblen := calculate_bonus_score_length (t0 :: T')
  have hrow0 := fzfRowGo_first_getD0 t0 (t0 :: T') (calculate_bonus_score (t0 :: T'))
    (List.replicate (t0 :: T').length NO_SCORE) NO_SCORE none
    (by simp) (by rw [hblen]; simp) (by simp)
    (by simp only [List.getD_cons_zero]; exact eqIgnoreAsciiCase_refl t0)
  have hsum1 := List.sum_take_succ (calculate_bonus_score (t0 :: T')) 0
    (show 0 < (calculate_bonus_score (t0 :: T')).length by rw [hblen]; simp)
  have hget0 := List.getD_eq_getElem (calculate_bonus_score (t0 :: T')) 0
    (show 0 < (calculate_bonus_score (t0 :: T')).length by rw [hblen]; simp)
  have hdiag := fzfRows_diag (t0 :: T') T' 1
    (fzfStep true (t0 :: T') (calculate_bonus_score (t0 :: T'))
      (List.replicate (t0 :: T').length NO_SCORE) t0)
    rfl le_rfl (by simp)
    (by simp [fzfStep, fzfRowGo_length, hblen])
    (by unfold fzfStep
        unfold MATCH_SCORE at hrow0
        have h11 : (1:Nat) - 1 = 0 := rfl
        have hs := hsum1
        simp only [List.take_zero, List.sum_nil, zero_add, Nat.zero_add] at hs
        rw [h11, hrow0, hget0, ← hs]
        push_cast
        omega)
  have htake : (calculate_bonus_score (t0 :: T')).take (t0 :: T').length
      = calculate_bonus_score (t0 :: T') := by
    rw [← hblen]
    exact List.take_length _
  rw [htake] at hdiag
  have hfinal : calculate_fzf_score (t0 :: T') (t0 :: T')
      = fzfRows (t0 :: T') (calculate_bonus_score (t0 :: T')) false
          (fzfStep true (t0 :: T') (calculate_bonus_score (t0 :: T'))
            (List.replicate (t0 :: T').length NO_SCORE) t0) T' := rfl
  rw [← hfinal] at hdiag
  have hlenf : (calculate_fzf_score (t0 :: T') (t0 :: T')).length = (t0 :: T').length :=
    calculate_fzf_score_length _ _
  have hmem : (calculate_fzf_score (t0 :: T') (t0 :: T')).getD ((t0 :: T').length - 1) 0
      ∈ calculate_fzf_score (t0 :: T') (t0 :: T') := by
    rw [List.getD_eq_getElem _ _ (by rw [hlenf]; simp)]
    exact List.getElem_mem _
  have hle := le_foldr_max _ _ hmem
  unfold fzfMaxScore
  omega

/-- C8: the exposed score of the exact match (text against itself) is at
least the exposed score of the text against any proper subsequence of
itself: every cell in row i of the dynamic program is bounded by
`10·(i+1) + (prefix sum of the bonus table)`, so a proper subsequence of
length m scores at most `10·m + B`, while the diagonal alignment of the
exact match scores exactly `10·|T| + B` with `B` the total bonus. -/
theorem fzf_exact_match_beats_subsequence (T S : List Char)
    (hsub : S.Sublist T) (hne : S ≠ T) :
    fzfMaxScore T S ≤ fzfMaxScore T T := by
  have hmlt : S.length < T.length := by
    rcases Nat.lt_or_eq_of_le hsub.length_le with h | h
    · exact h
    · exact absurd (hsub.eq_of_length h) hne
  have hT : T ≠ [] := by
    intro hnil
    rw [hnil] at hmlt
    simp at hmlt
  have h1 := fzfMaxScore_upper T S
  have h2 := fzfMaxScore_diag_lower T hT
  have hlen : (S.length : Int) + 1 ≤ (T.length : Int) := by exact_mod_cast hmlt
  omega

/-- C8 witness: the exact match on `"ab"` scores at least the proper
subsequence `"a"`. -/
theorem fzf_exact_match_beats_subsequence_witness :
    fzfMaxScore ['a', 'b'] ['a'] ≤ fzfMaxScore ['a', 'b'] ['a', 'b'] :=
  fzf_exact_match_beats_subsequence ['a', 'b'] ['a'] (by decide) (by decide)
